import Mathlib

/-!
Verification of the chunked climate time-series extraction pipeline of the
Climate_API repository.

The embedding models:
  * `extract_temperature_timeseries_chunked` of `extract_climate_data.py`
    (namespace `ExtractClimateData`),
  * `extract_temperature_timeseries_chunked` of
    `Scripts/case_study_soweto_working.py` (namespace `CaseStudy`),
  * `convert_temp`, `validate_date_range` and
    `ClimateDataExtractor.calculate_monthly_averages` of `src/climate_utils.py`
    (namespace `ClimateUtils`).

Modelling conventions:
  * calendar dates and datetimes are day numbers (`ℤ`, days since an epoch);
    `datetime.strptime` / `strftime` are bijections between date strings and
    day numbers, `timedelta(days = k)` is `+ k`;
  * numeric band values are exact rationals (`ℚ`); the Python floats are
    idealised as real-number arithmetic, which is exact on the affine
    conversions at issue;
  * a `getRegion` result row `[id, longitude, latitude, time, b4, b5]` is an
    `EERow`: its day number together with the two selected band values, each
    `Option ℚ` (`none` is a masked/null pixel);
  * the remote query (`collection.filterDate(s, e).getRegion(...).getInfo()`,
    which may raise) is an oracle `ℤ → ℤ → Except Unit (List EERow)`; Earth
    Engine's `filterDate` end bound is exclusive, so a chunk `(s, e)` queries
    the half-open day interval `[s, e)`;
  * the unbounded Python `while` loop is run on explicit fuel: a result
    `none` means the loop did not finish within the given number of
    iterations (every concrete bound is proved for all fuels where needed).
-/

/-- One record of the extracted daily DataFrame: columns
`date`, `tmax_celsius`, `tmean_celsius`. -/
structure Rec where
  date : ℤ
  tmax : ℚ
  tmean : ℚ
deriving DecidableEq, Repr

/-- One raw `getRegion` data row after the two-band `select`: the row's day
number (from `row[3]`, the epoch-milliseconds timestamp) and the selected
band values `row[4]` and `row[5]` (in the select order of the source:
`temperature_2m_celsius`, then `temperature_2m_max_celsius`). -/
structure EERow where
  time : ℤ
  v4 : Option ℚ
  v5 : Option ℚ
deriving DecidableEq, Repr

/-- A raw ERA5 daily image restricted to the point: the day number and the
Kelvin values of the bands `temperature_2m` (daily mean) and
`temperature_2m_max`. -/
structure KRow where
  time : ℤ
  t2m : Option ℚ
  t2mMax : Option ℚ
deriving DecidableEq, Repr

/-- The remote per-chunk query oracle: given the chunk bounds it either
returns the data rows of `getRegion` (header row omitted) or raises. -/
def Query : Type := ℤ → ℤ → Except Unit (List EERow)

/-- `chunk_end = min(current_date + timedelta(days=chunk_days), end_dt)` —
the single advance step shared by both chunked extraction loops. -/
def nextCurrent (endd cd cur : ℤ) : ℤ := min (cur + cd) endd

/-- The sequence of `(chunk_start, chunk_end)` pairs the chunked loop
iterates over, run on fuel (the loop itself has no termination guard). -/
def chunkPlanAux (endd cd : ℤ) : ℕ → ℤ → List (ℤ × ℤ)
  | 0, _ => []
  | n + 1, cur =>
    if cur < endd then
      (cur, nextCurrent endd cd cur) :: chunkPlanAux endd cd n (nextCurrent endd cd cur)
    else []

/-- The chunk plan of `extract_temperature_timeseries_chunked` for
`(start_date, end_date, chunk_days)`; the fuel `(endd - start).toNat` is
sufficient whenever `chunk_days ≥ 1`. -/
def chunkPlan (start endd cd : ℤ) : List (ℤ × ℤ) :=
  chunkPlanAux endd cd (endd - start).toNat start

namespace ExtractClimateData

/-- `kelvin_to_celsius` of `extract_climate_data.py` as seen through
`getRegion`: after
`select(['temperature_2m_celsius', 'temperature_2m_max_celsius'])` the row's
`row[4]` holds `temperature_2m - 273.15` (the daily MEAN) and `row[5]` holds
`temperature_2m_max - 273.15` (the daily MAX). -/
def kelvin_to_celsius (r : KRow) : EERow :=
  ⟨r.time, r.t2m.map (fun v => v - 273.15), r.t2mMax.map (fun v => v - 273.15)⟩

/-- The row loop of `extract_temperature_timeseries_chunked`
(`extract_climate_data.py` lines 101-110): a row is appended iff
`row[4] is not None and row[5] is not None`, with
`tmax_celsius := row[4]` and `tmean_celsius := row[5]` (note: `row[4]` is the
mean band and `row[5]` the max band). -/
def processRows (rows : List EERow) : List Rec :=
  rows.filterMap fun r =>
    match r.v4, r.v5 with
    | some a, some b => some ⟨r.time, a, b⟩
    | _, _ => none

/-- The `while current_date < end_dt` loop of
`extract_temperature_timeseries_chunked` in `extract_climate_data.py`.
On a query error the `except` block executes `continue`, which skips the
`current_date = chunk_end` advance: the same chunk is attempted again. -/
def extractLoop (q : Query) (endd cd : ℤ) : ℕ → ℤ → List Rec → Option (List Rec)
  | 0, cur, acc => if cur < endd then none else some acc
  | fuel + 1, cur, acc =>
    if cur < endd then
      let ce := nextCurrent endd cd cur
      match q cur ce with
      | Except.ok rows => extractLoop q endd cd fuel ce (acc ++ processRows rows)
      | Except.error _ => extractLoop q endd cd fuel cur acc
    else some acc

end ExtractClimateData

/-- Insertion of an element into a list sorted by the boolean relation `le`;
together with `insSort` this models a stable comparison sort on a DataFrame
column (`pandas.DataFrame.sort_values`). -/
def insertLe {α : Type} (le : α → α → Bool) (a : α) : List α → List α
  | [] => [a]
  | b :: l => if le a b then a :: b :: l else b :: insertLe le a l

/-- Insertion sort by the boolean relation `le`. -/
def insSort {α : Type} (le : α → α → Bool) : List α → List α
  | [] => []
  | a :: l => insertLe le a (insSort le l)

/-- `df.sort_values('date')`: sort the records ascending by date. -/
def sortByDate (l : List Rec) : List Rec :=
  insSort (fun a b => decide (a.date ≤ b.date)) l

/-- Worker of `dedupDatesFirst`: `seen` collects the dates already kept. -/
def dedupDatesFirstAux (seen : List ℤ) : List Rec → List Rec
  | [] => []
  | r :: rs =>
    if r.date ∈ seen then dedupDatesFirstAux seen rs
    else r :: dedupDatesFirstAux (r.date :: seen) rs

/-- `df.drop_duplicates(subset=['date'])` with the default `keep='first'`:
for each calendar date only the first row carrying it is kept, in the
original row order. -/
def dedupDatesFirst (l : List Rec) : List Rec :=
  dedupDatesFirstAux [] l

namespace ExtractClimateData

/-- `extract_temperature_timeseries_chunked` of `extract_climate_data.py`:
run the chunked loop, then — when any rows were accumulated — sort them by
date; an empty accumulation gives the empty DataFrame. No deduplication is
performed. `none` means the loop did not finish within `fuel` iterations. -/
def extract_temperature_timeseries_chunked (q : Query) (start endd cd : ℤ)
    (fuel : ℕ) : Option (List Rec) :=
  (extractLoop q endd cd fuel start []).map fun l =>
    if l = [] then [] else sortByDate l

end ExtractClimateData

namespace CaseStudy

/-- The row loop of `extract_temperature_timeseries_chunked` in
`Scripts/case_study_soweto_working.py` (lines 147-155): a row is appended iff
`row[4] is not None and row[5] is not None`, with
`all_tmean.append(row[4])` (the `temperature_2m_celsius` band) and
`all_tmax.append(row[5])` (the `temperature_2m_max_celsius` band). -/
def processRows (rows : List EERow) : List Rec :=
  rows.filterMap fun r =>
    match r.v4, r.v5 with
    | some a, some b => some ⟨r.time, b, a⟩
    | _, _ => none

/-- The `while current_date < end_dt` loop of the case-study version: the
`except` block only logs, and `current_date = chunk_end` is reached on both
the success and the failure path, so a failing chunk is skipped. -/
def extractLoop (q : Query) (endd cd : ℤ) : ℕ → ℤ → List Rec → Option (List Rec)
  | 0, cur, acc => if cur < endd then none else some acc
  | fuel + 1, cur, acc =>
    if cur < endd then
      let ce := nextCurrent endd cd cur
      let acc2 := match q cur ce with
        | Except.ok rows => acc ++ processRows rows
        | Except.error _ => acc
      extractLoop q endd cd fuel ce acc2
    else some acc

/-- `extract_temperature_timeseries_chunked` of
`Scripts/case_study_soweto_working.py`: run the loop, deduplicate by date
keeping the first occurrence, then sort ascending by date. -/
def extract_temperature_timeseries_chunked (q : Query) (start endd cd : ℤ)
    (fuel : ℕ) : Option (List Rec) :=
  (extractLoop q endd cd fuel start []).map fun l =>
    sortByDate (dedupDatesFirst l)

end CaseStudy

namespace ClimateUtils

/-- `round(x, 2)`: rounding to 2 decimal places, modelled by arithmetic
rounding to the nearest multiple of `1/100` on exact rationals (`round` is
`⌊x + 1/2⌋`; the numpy tie-to-even refinement differs only at exact
half-ulp ties, an artefact of binary floats with no exact-rational
counterpart). -/
def round2 (x : ℚ) : ℚ := (round (100 * x) : ℤ) / 100

/-- `round(sqrt v, 2)` computed exactly on `ℚ`: the nearest multiple of
`1/100` to the real square root of `v` (for `v = p/q ≥ 0` one has
`round (100 √v) = ⌊(√(40000 p q) + 2 q) / (4 q)⌋ ⌋`, computed with
`Nat.sqrt`); the source takes a binary-float `sqrt` instead, idealised here
as the exact real square root. -/
def roundStd2 (v : ℚ) : ℚ :=
  let w : ℚ := 10000 * v
  let p : ℕ := w.num.toNat
  let q : ℕ := w.den
  (((Nat.sqrt (4 * p * q) + q) / (2 * q) : ℕ) : ℚ) / 100

/-- The sample standard deviation's square (`ddof = 1`, the pandas `std`
default): `Σ (x - mean)² / (n - 1)`. -/
def sampleVar (xs : List ℚ) : ℚ :=
  let n : ℚ := xs.length
  let mu : ℚ := xs.sum / n
  ((xs.map fun x => (x - mu) ^ 2).sum) / (n - 1)

/-- A daily record as fed to `calculate_monthly_averages`: its calendar date
(year, month, day — `df['date'].dt.to_period('M')` keeps year and month)
and the two temperature columns. -/
structure CalRec where
  y : ℕ
  m : ℕ
  d : ℕ
  tmax : ℚ
  tmean : ℚ
deriving DecidableEq, Repr

/-- The `(year, month)` group key (`year_month` period) of a record. -/
def mkey (r : CalRec) : ℕ × ℕ := (r.y, r.m)

/-- Boolean lexicographic order on `(year, month)` keys (the ascending
order of pandas `Period('M')` keys). -/
def keyLe (a b : ℕ × ℕ) : Bool :=
  decide (a.1 < b.1 ∨ (a.1 = b.1 ∧ a.2 ≤ b.2))

/-- Strict lexicographic order on `(year, month)` keys. -/
def keyLt (a b : ℕ × ℕ) : Prop :=
  a.1 < b.1 ∨ (a.1 = b.1 ∧ a.2 < b.2)

/-- The five aggregate statistics pandas computes per column and month under
`.agg({col: ['mean', 'std', 'min', 'max', 'count']}).round(2)`; `std` is
`none` for a single-row group (pandas: `NaN`). -/
structure ColStats where
  mean : ℚ
  std : Option ℚ
  min : ℚ
  max : ℚ
  count : ℕ
deriving DecidableEq, Repr

/-- Statistics of one non-empty column slice (the `[]` case is never
reached: every emitted group holds at least one record). -/
def colStats : List ℚ → ColStats
  | [] => ⟨0, none, 0, 0, 0⟩
  | x :: t =>
    { mean := round2 ((x :: t).sum / ((x :: t).length : ℚ))
      std := if t = [] then none else some (roundStd2 (sampleVar (x :: t)))
      min := round2 (t.foldl min x)
      max := round2 (t.foldl max x)
      count := (x :: t).length }

/-- One output row of `calculate_monthly_averages`: the `year_month` key and
the statistics of both temperature columns. -/
structure MRow where
  y : ℕ
  m : ℕ
  tmaxStats : ColStats
  tmeanStats : ColStats
deriving DecidableEq, Repr

/-- `ClimateDataExtractor.calculate_monthly_averages` of
`src/climate_utils.py`: group the daily records by their `(year, month)`
period (pandas `groupby` emits exactly the keys present in the input, in
ascending key order) and aggregate each column with
`['mean', 'std', 'min', 'max', 'count']`, rounded to 2 decimals. -/
def calculate_monthly_averages (rows : List CalRec) : List MRow :=
  let months := insSort keyLe (rows.map mkey).dedup
  months.map fun k =>
    let g := rows.filter fun r => mkey r = k
    ⟨k.1, k.2, colStats (g.map CalRec.tmax), colStats (g.map CalRec.tmean)⟩

/-- `convert_temp` inside `get_era5_temperature` of `src/climate_utils.py`:
`select(['temperature_2m_max', 'temperature_2m_mean']).subtract(273.15)`
renamed to `['tmax_celsius', 'tmean_celsius']` — given the max and mean
Kelvin band values, returns `(tmax_celsius, tmean_celsius)`. -/
def convert_temp (maxK meanK : ℚ) : ℚ × ℚ :=
  (maxK - 273.15, meanK - 273.15)

/-- Day number of `datetime(1979, 1, 1)` relative to the 1970-01-01 epoch
(the ERA5 availability floor checked by `validate_date_range`). -/
def era5StartDay : ℤ := 3287

/-- `validate_date_range` of `src/climate_utils.py`, for well-formed date
strings (the `strptime` failure branch is outside this model): it only
RETURNS a boolean — printing, not raising, on each rejected case. `now` is
the day number of `datetime.now()`. -/
def validate_date_range (now start endd : ℤ) : Bool :=
  if endd ≤ start then false
  else if now < start then false
  else if start < era5StartDay then false
  else true

end ClimateUtils

/-! ### Lemmas about the insertion sort model -/

theorem insertLe_perm {α : Type} (le : α → α → Bool) (a : α) (l : List α) :
    (insertLe le a l).Perm (a :: l) := by
  induction l with
  | nil => exact List.Perm.refl _
  | cons b t ih =>
    simp only [insertLe]
    by_cases h : le a b
    · rw [if_pos h]
    · rw [if_neg h]
      exact (ih.cons b).trans (List.Perm.swap a b t)

theorem insSort_perm {α : Type} (le : α → α → Bool) (l : List α) :
    (insSort le l).Perm l := by
  induction l with
  | nil => exact List.Perm.refl _
  | cons a t ih =>
    exact (insertLe_perm le a (insSort le t)).trans (ih.cons a)

theorem insertLe_pairwise {α : Type} (le : α → α → Bool)
    (htot : ∀ a b, le a b = true ∨ le b a = true)
    (htr : ∀ a b c, le a b = true → le b c = true → le a c = true)
    (a : α) (l : List α) (hl : l.Pairwise (fun x y => le x y = true)) :
    (insertLe le a l).Pairwise (fun x y => le x y = true) := by
  induction l with
  | nil => simp [insertLe]
  | cons b t ih =>
    rcases List.pairwise_cons.mp hl with ⟨hb, ht⟩
    simp only [insertLe]
    by_cases h : le a b
    · rw [if_pos h]
      refine List.pairwise_cons.mpr ⟨?_, hl⟩
      intro y hy
      rcases List.mem_cons.mp hy with hy | hy
      · exact hy ▸ h
      · exact htr a b y h (hb y hy)
    · rw [if_neg h]
      have hba : le b a = true := (htot a b).resolve_left h
      refine List.pairwise_cons.mpr ⟨?_, ih ht⟩
      intro y hy
      have hy2 : y ∈ a :: t := (insertLe_perm le a t).subset hy
      rcases List.mem_cons.mp hy2 with hy2 | hy2
      · exact hy2 ▸ hba
      · exact hb y hy2

theorem insSort_pairwise {α : Type} (le : α → α → Bool)
    (htot : ∀ a b, le a b = true ∨ le b a = true)
    (htr : ∀ a b c, le a b = true → le b c = true → le a c = true)
    (l : List α) : (insSort le l).Pairwise (fun x y => le x y = true) := by
  induction l with
  | nil => simp [insSort]
  | cons a t ih => exact insertLe_pairwise le htot htr a (insSort le t) ih

theorem sortByDate_perm (l : List Rec) : (sortByDate l).Perm l :=
  insSort_perm _ l

theorem sortByDate_sorted (l : List Rec) :
    (sortByDate l).Pairwise (fun a b => a.date ≤ b.date) := by
  have h := insSort_pairwise (fun a b : Rec => decide (a.date ≤ b.date))
    (fun a b => by
      rcases le_total a.date b.date with h | h
      · exact Or.inl (decide_eq_true h)
      · exact Or.inr (decide_eq_true h))
    (fun a b c hab hbc =>
      decide_eq_true (le_trans (of_decide_eq_true hab) (of_decide_eq_true hbc)))
    l
  exact h.imp fun hxy => of_decide_eq_true hxy

/-! ### Lemmas about the keep-first deduplication model -/

theorem dedupDatesFirstAux_subset (seen : List ℤ) (l : List Rec) :
    ∀ r ∈ dedupDatesFirstAux seen l, r ∈ l := by
  induction l generalizing seen with
  | nil => simp [dedupDatesFirstAux]
  | cons x t ih =>
    intro r hr
    simp only [dedupDatesFirstAux] at hr
    by_cases hx : x.date ∈ seen
    · rw [if_pos hx] at hr
      exact List.mem_cons_of_mem x (ih seen r hr)
    · rw [if_neg hx] at hr
      rcases List.mem_cons.mp hr with hr | hr
      · exact hr ▸ List.mem_cons_self x t
      · exact List.mem_cons_of_mem x (ih _ r hr)

theorem dedupDatesFirstAux_not_seen (seen : List ℤ) (l : List Rec) :
    ∀ r ∈ dedupDatesFirstAux seen l, r.date ∉ seen := by
  induction l generalizing seen with
  | nil => simp [dedupDatesFirstAux]
  | cons x t ih =>
    intro r hr
    simp only [dedupDatesFirstAux] at hr
    by_cases hx : x.date ∈ seen
    · rw [if_pos hx] at hr
      exact ih seen r hr
    · rw [if_neg hx] at hr
      rcases List.mem_cons.mp hr with hr | hr
      · exact hr ▸ hx
      · intro hcontra
        exact ih (x.date :: seen) r hr (List.mem_cons_of_mem _ hcontra)

theorem dedupDatesFirstAux_nodup (seen : List ℤ) (l : List Rec) :
    ((dedupDatesFirstAux seen l).map Rec.date).Nodup := by
  induction l generalizing seen with
  | nil => simp [dedupDatesFirstAux]
  | cons x t ih =>
    simp only [dedupDatesFirstAux]
    by_cases hx : x.date ∈ seen
    · rw [if_pos hx]; exact ih seen
    · rw [if_neg hx]
      simp only [List.map_cons, List.nodup_cons]
      constructor
      · intro hmem
        rcases List.mem_map.mp hmem with ⟨r, hr, hrd⟩
        exact dedupDatesFirstAux_not_seen _ _ r hr (hrd ▸ List.mem_cons_self x.date seen)
      · exact ih (x.date :: seen)

theorem dedupDatesFirstAux_first_occ (seen : List ℤ) (l : List Rec) :
    ∀ r ∈ dedupDatesFirstAux seen l,
      ∃ l1 l2, l = l1 ++ r :: l2 ∧ ∀ x ∈ l1, x.date ∈ seen ∨ x.date ≠ r.date := by
  induction l generalizing seen with
  | nil => simp [dedupDatesFirstAux]
  | cons x t ih =>
    intro r hr
    simp only [dedupDatesFirstAux] at hr
    by_cases hx : x.date ∈ seen
    · rw [if_pos hx] at hr
      rcases ih seen r hr with ⟨l1, l2, heq, hprev⟩
      exact ⟨x :: l1, l2, by rw [heq]; rfl,
        fun y hy => by
          rcases List.mem_cons.mp hy with hy | hy
          · exact Or.inl (hy ▸ hx)
          · exact hprev y hy⟩
    · rw [if_neg hx] at hr
      rcases List.mem_cons.mp hr with hr | hr
      · exact ⟨[], t, by simp [hr], by simp⟩
      · rcases ih (x.date :: seen) r hr with ⟨l1, l2, heq, hprev⟩
        have hrx : r.date ≠ x.date := by
          intro hcontra
          exact dedupDatesFirstAux_not_seen _ _ r hr (hcontra ▸ List.mem_cons_self x.date seen)
        refine ⟨x :: l1, l2, by rw [heq]; rfl, fun y hy => ?_⟩
        rcases List.mem_cons.mp hy with hy | hy
        · exact Or.inr (hy ▸ fun h => hrx h.symm)
        · rcases hprev y hy with hy2 | hy2
          · rcases List.mem_cons.mp hy2 with hy2 | hy2
            · exact Or.inr (hy2 ▸ fun h => hrx h.symm)
            · exact Or.inl hy2
          · exact Or.inr hy2

theorem dedupDatesFirstAux_covers (seen : List ℤ) (l : List Rec) :
    ∀ a ∈ l, a.date ∈ seen ∨ ∃ r ∈ dedupDatesFirstAux seen l, r.date = a.date := by
  induction l generalizing seen with
  | nil => simp
  | cons x t ih =>
    intro a ha
    simp only [dedupDatesFirstAux]
    by_cases hx : x.date ∈ seen
    · rw [if_pos hx]
      rcases List.mem_cons.mp ha with ha | ha
      · exact Or.inl (ha ▸ hx)
      · exact ih seen a ha
    · rw [if_neg hx]
      rcases List.mem_cons.mp ha with ha | ha
      · exact Or.inr ⟨x, List.mem_cons_self x _, (ha ▸ rfl : x.date = a.date)⟩
      · rcases ih (x.date :: seen) a ha with hy | hy
        · rcases List.mem_cons.mp hy with hy | hy
          · exact Or.inr ⟨x, List.mem_cons_self x _, hy.symm⟩
          · exact Or.inl hy
        · rcases hy with ⟨r, hr, hrd⟩
          exact Or.inr ⟨r, List.mem_cons_of_mem x hr, hrd⟩

/-! ### Lemmas about the chunk plan -/

theorem chunkPlanAux_nil (endd cd : ℤ) (n : ℕ) (cur : ℤ) (h : endd ≤ cur) :
    chunkPlanAux endd cd n cur = [] := by
  cases n with
  | zero => rfl
  | succ m => simp [chunkPlanAux, not_lt.mpr h]

theorem chunkPlanAux_head (endd cd : ℤ) (n : ℕ) (cur : ℤ) :
    ∀ hd, (chunkPlanAux endd cd n cur).head? = some hd → hd.1 = cur := by
  cases n with
  | zero => simp [chunkPlanAux]
  | succ m =>
    intro hd hhd
    simp only [chunkPlanAux] at hhd
    by_cases h : cur < endd
    · rw [if_pos h] at hhd
      simp only [List.head?_cons, Option.some.injEq] at hhd
      rw [← hhd]
    · rw [if_neg h] at hhd
      simp at hhd

theorem mem_chunkPlanAux_ge (endd cd : ℤ) (hcd : 1 ≤ cd) :
    ∀ (n : ℕ) (cur : ℤ) (p : ℤ × ℤ), p ∈ chunkPlanAux endd cd n cur → cur ≤ p.1 := by
  intro n
  induction n with
  | zero => simp [chunkPlanAux]
  | succ m ih =>
    intro cur p hp
    simp only [chunkPlanAux] at hp
    by_cases h : cur < endd
    · rw [if_pos h] at hp
      rcases List.mem_cons.mp hp with hp | hp
      · rw [hp]
      · have := ih (nextCurrent endd cd cur) p hp
        simp only [nextCurrent] at this
        omega
    · rw [if_neg h] at hp
      simp at hp

theorem mem_chunkPlanAux_shape (endd cd : ℤ) :
    ∀ (n : ℕ) (cur : ℤ) (p : ℤ × ℤ), p ∈ chunkPlanAux endd cd n cur →
      p.1 < endd ∧ p.2 = nextCurrent endd cd p.1 := by
  intro n
  induction n with
  | zero => simp [chunkPlanAux]
  | succ m ih =>
    intro cur p hp
    simp only [chunkPlanAux] at hp
    by_cases h : cur < endd
    · rw [if_pos h] at hp
      rcases List.mem_cons.mp hp with hp | hp
      · rw [hp]
        exact ⟨h, rfl⟩
      · exact ih _ p hp
    · rw [if_neg h] at hp
      simp at hp

theorem chunkPlanAux_chain (endd cd : ℤ) :
    ∀ (n : ℕ) (cur : ℤ),
      (chunkPlanAux endd cd n cur).Chain' (fun p q => p.2 = q.1) := by
  intro n
  induction n with
  | zero => simp [chunkPlanAux]
  | succ m ih =>
    intro cur
    simp only [chunkPlanAux]
    by_cases h : cur < endd
    · rw [if_pos h]
      refine List.chain'_cons'.mpr ⟨?_, ih _⟩
      intro q hq
      exact (chunkPlanAux_head endd cd m _ q (by simpa using hq)).symm
    · rw [if_neg h]
      simp

theorem chunkPlanAux_pairwise (endd cd : ℤ) (hcd : 1 ≤ cd) :
    ∀ (n : ℕ) (cur : ℤ),
      (chunkPlanAux endd cd n cur).Pairwise (fun p q => p.2 ≤ q.1) := by
  intro n
  induction n with
  | zero => simp [chunkPlanAux]
  | succ m ih =>
    intro cur
    simp only [chunkPlanAux]
    by_cases h : cur < endd
    · rw [if_pos h]
      refine List.pairwise_cons.mpr ⟨?_, ih _⟩
      intro q hq
      exact mem_chunkPlanAux_ge endd cd hcd m _ q hq
    · rw [if_neg h]
      simp

theorem chunkPlanAux_cover (endd cd : ℤ) (hcd : 1 ≤ cd) :
    ∀ (n : ℕ) (cur : ℤ), (endd - cur).toNat ≤ n →
      ∀ x : ℤ, (cur ≤ x ∧ x < endd) ↔
        ∃ p ∈ chunkPlanAux endd cd n cur, p.1 ≤ x ∧ x < p.2 := by
  intro n
  induction n with
  | zero =>
    intro cur hfuel x
    simp only [chunkPlanAux, List.not_mem_nil]
    constructor
    · intro hx; omega
    · rintro ⟨p, hp, -⟩; exact absurd hp (by simp)
  | succ m ih =>
    intro cur hfuel x
    simp only [chunkPlanAux]
    by_cases h : cur < endd
    · rw [if_pos h]
      have hnext : cur + 1 ≤ nextCurrent endd cd cur ∧ nextCurrent endd cd cur ≤ endd := by
        simp only [nextCurrent]; omega
      have hih := ih (nextCurrent endd cd cur) (by simp only [nextCurrent] at hnext ⊢; omega) x
      constructor
      · intro hx
        by_cases hx2 : x < nextCurrent endd cd cur
        · exact ⟨(cur, nextCurrent endd cd cur), List.mem_cons_self _ _, hx.1, hx2⟩
        · have := hih.mp ⟨by omega, hx.2⟩
          rcases this with ⟨p, hp, hpx⟩
          exact ⟨p, List.mem_cons_of_mem _ hp, hpx⟩
      · rintro ⟨p, hp, hpx⟩
        rcases List.mem_cons.mp hp with hp | hp
        · rw [hp] at hpx
          simp only at hpx
          exact ⟨hpx.1, by omega⟩
        · have hx := hih.mpr ⟨p, hp, hpx⟩
          exact ⟨by omega, hx.2⟩
    · rw [if_neg h]
      simp only [List.not_mem_nil]
      constructor
      · intro hx; omega
      · rintro ⟨p, hp, -⟩; exact absurd hp (by simp)

theorem chunkPlanAux_length (endd cd : ℤ) (hcd : 1 ≤ cd) :
    ∀ (n : ℕ) (cur : ℤ), (endd - cur).toNat ≤ n →
      (chunkPlanAux endd cd n cur).length
        = ((endd - cur).toNat + cd.toNat - 1) / cd.toNat := by
  intro n
  induction n with
  | zero =>
    intro cur hfuel
    have h0 : (endd - cur).toNat = 0 := by omega
    rw [h0]
    simp only [chunkPlanAux, List.length_nil]
    rw [Nat.div_eq_of_lt (by omega)]
  | succ m ih =>
    intro cur hfuel
    simp only [chunkPlanAux]
    by_cases h : cur < endd
    · rw [if_pos h]
      simp only [List.length_cons]
      set D := (endd - cur).toNat with hD
      set k := cd.toNat with hk
      have hD1 : 1 ≤ D := by omega
      have hk1 : 1 ≤ k := by omega
      have hnextD : (endd - nextCurrent endd cd cur).toNat = D - k := by
        simp only [nextCurrent]; omega
      have hfuel2 : (endd - nextCurrent endd cd cur).toNat ≤ m := by
        simp only [nextCurrent]; omega
      rw [ih (nextCurrent endd cd cur) hfuel2, hnextD]
      rcases le_or_lt D k with hDk | hDk
      · have h1 : D - k = 0 := by omega
        rw [h1]
        rw [Nat.div_eq_of_lt (a := 0 + k - 1) (by omega)]
        rw [show (D + k - 1) / k = 1 from Nat.div_eq_of_lt_le (by omega) (by omega)]
      · have h2 : D - k + k - 1 = D - 1 := by omega
        have h3 : D + k - 1 = (D - 1) + k := by omega
        rw [h2, h3, Nat.add_div_right _ (by omega)]
    · rw [if_neg h]
      have h0 : (endd - cur).toNat = 0 := by omega
      rw [h0]
      simp only [List.length_nil]
      rw [Nat.div_eq_of_lt (by omega)]

theorem chunkPlanAux_congr (endd cd : ℤ) (hcd : 1 ≤ cd) :
    ∀ (n m : ℕ) (cur : ℤ), (endd - cur).toNat ≤ n → (endd - cur).toNat ≤ m →
      chunkPlanAux endd cd n cur = chunkPlanAux endd cd m cur := by
  intro n
  induction n with
  | zero =>
    intro m cur hn hm
    rw [chunkPlanAux_nil endd cd 0 cur (by omega), chunkPlanAux_nil endd cd m cur (by omega)]
  | succ n0 ih =>
    intro m cur hn hm
    by_cases h : cur < endd
    · have hm1 : 1 ≤ m := by omega
      obtain ⟨m0, rfl⟩ : ∃ m0, m = m0 + 1 := ⟨m - 1, by omega⟩
      simp only [chunkPlanAux, if_pos h]
      congr 1
      have hstep : cur + 1 ≤ nextCurrent endd cd cur ∧ nextCurrent endd cd cur ≤ endd := by
        simp only [nextCurrent]; omega
      exact ih m0 _ (by simp only [nextCurrent] at hstep ⊢; omega)
        (by simp only [nextCurrent] at hstep ⊢; omega)
    · rw [chunkPlanAux_nil endd cd _ cur (by omega), chunkPlanAux_nil endd cd m cur (by omega)]

/-! ### Lemmas about the extraction loops -/

theorem ExtractClimateData_extractLoop_ok (endd cd : ℤ) (hcd : 1 ≤ cd)
    (rowsOf : ℤ → ℤ → List EERow) :
    ∀ (n : ℕ) (cur : ℤ) (acc : List Rec), (endd - cur).toNat ≤ n →
      ExtractClimateData.extractLoop (fun s e => Except.ok (rowsOf s e)) endd cd n cur acc
        = some (acc ++ (chunkPlanAux endd cd n cur).flatMap
            (fun p => ExtractClimateData.processRows (rowsOf p.1 p.2))) := by
  intro n
  induction n with
  | zero =>
    intro cur acc hfuel
    have h : ¬ cur < endd := by omega
    simp [ExtractClimateData.extractLoop, chunkPlanAux, h]
  | succ m ih =>
    intro cur acc hfuel
    by_cases h : cur < endd
    · have hfuel2 : (endd - nextCurrent endd cd cur).toNat ≤ m := by
        simp only [nextCurrent]; omega
      simp only [ExtractClimateData.extractLoop, if_pos h, chunkPlanAux]
      rw [ih (nextCurrent endd cd cur) _ hfuel2]
      simp [List.append_assoc]
    · simp [ExtractClimateData.extractLoop, chunkPlanAux, h]

theorem ExtractClimateData_extractLoop_stuck (q : Query) (endd cd cur : ℤ)
    (hcur : cur < endd) (hfail : q cur (nextCurrent endd cd cur) = Except.error ()) :
    ∀ (n : ℕ) (acc : List Rec),
      ExtractClimateData.extractLoop q endd cd n cur acc = none := by
  intro n
  induction n with
  | zero => intro acc; simp [ExtractClimateData.extractLoop, hcur]
  | succ m ih =>
    intro acc
    simp only [ExtractClimateData.extractLoop, if_pos hcur, hfail]
    exact ih acc

theorem CaseStudy_extractLoop_all_fail (q : Query) (endd cd : ℤ) (hcd : 1 ≤ cd)
    (hq : ∀ s e, q s e = Except.error ()) :
    ∀ (n : ℕ) (cur : ℤ) (acc : List Rec), (endd - cur).toNat ≤ n →
      CaseStudy.extractLoop q endd cd n cur acc = some acc := by
  intro n
  induction n with
  | zero =>
    intro cur acc hfuel
    have h : ¬ cur < endd := by omega
    simp [CaseStudy.extractLoop, h]
  | succ m ih =>
    intro cur acc hfuel
    by_cases h : cur < endd
    · have hfuel2 : (endd - nextCurrent endd cd cur).toNat ≤ m := by
        simp only [nextCurrent]; omega
      simp only [CaseStudy.extractLoop, if_pos h, hq]
      exact ih (nextCurrent endd cd cur) acc hfuel2
    · simp [CaseStudy.extractLoop, h]

/-! ### Lemmas about the advance step iteration -/

theorem iterate_nextCurrent (endd cd start : ℤ) (hse : start ≤ endd) (hcd : 0 ≤ cd) :
    ∀ n : ℕ, (nextCurrent endd cd)^[n] start = min (start + n * cd) endd := by
  intro n
  induction n with
  | zero => simp only [Function.iterate_zero, id, Nat.cast_zero, zero_mul, add_zero]; omega
  | succ m ih =>
    rw [Function.iterate_succ_apply', ih]
    simp only [nextCurrent, Nat.cast_succ]
    have : ((m : ℤ) + 1) * cd = m * cd + cd := by ring
    rw [this]
    omega

theorem iterate_nextCurrent_nonpos (endd cd start : ℤ) (hse : start < endd) (hcd : cd ≤ 0) :
    ∀ n : ℕ, (nextCurrent endd cd)^[n] start ≤ start := by
  intro n
  induction n with
  | zero => simp
  | succ m ih =>
    rw [Function.iterate_succ_apply']
    simp only [nextCurrent]
    omega

/-! ### Lemmas about the monthly aggregation -/

namespace ClimateUtils

theorem foldl_min_mem : ∀ (t : List ℚ) (x : ℚ), t.foldl min x ∈ x :: t := by
  intro t
  induction t with
  | nil => intro x; simp
  | cons b t ih =>
    intro x
    simp only [List.foldl_cons]
    rcases List.mem_cons.mp (ih (min x b)) with h | h
    · rw [h]
      rcases min_choice x b with h2 | h2
      · rw [h2]; exact List.mem_cons_self x (b :: t)
      · rw [h2]; exact List.mem_cons_of_mem x (List.mem_cons_self b t)
    · exact List.mem_cons_of_mem x (List.mem_cons_of_mem b h)

theorem foldl_min_le : ∀ (t : List ℚ) (x : ℚ), ∀ w ∈ x :: t, t.foldl min x ≤ w := by
  intro t
  induction t with
  | nil =>
    intro x w hw
    rcases List.mem_cons.mp hw with hw | hw
    · exact hw ▸ le_refl x
    · simp at hw
  | cons b t ih =>
    intro x w hw
    simp only [List.foldl_cons]
    rcases List.mem_cons.mp hw with hw | hw
    · exact le_trans (ih (min x b) (min x b) (List.mem_cons_self _ t)) (hw ▸ min_le_left x b)
    · rcases List.mem_cons.mp hw with hw | hw
      · exact le_trans (ih (min x b) (min x b) (List.mem_cons_self _ t)) (hw ▸ min_le_right x b)
      · exact ih (min x b) w (List.mem_cons_of_mem _ hw)

theorem foldl_max_mem : ∀ (t : List ℚ) (x : ℚ), t.foldl max x ∈ x :: t := by
  intro t
  induction t with
  | nil => intro x; simp
  | cons b t ih =>
    intro x
    simp only [List.foldl_cons]
    rcases List.mem_cons.mp (ih (max x b)) with h | h
    · rw [h]
      rcases max_choice x b with h2 | h2
      · rw [h2]; exact List.mem_cons_self x (b :: t)
      · rw [h2]; exact List.mem_cons_of_mem x (List.mem_cons_self b t)
    · exact List.mem_cons_of_mem x (List.mem_cons_of_mem b h)

theorem foldl_max_ge : ∀ (t : List ℚ) (x : ℚ), ∀ w ∈ x :: t, w ≤ t.foldl max x := by
  intro t
  induction t with
  | nil =>
    intro x w hw
    rcases List.mem_cons.mp hw with hw | hw
    · exact hw ▸ le_refl x
    · simp at hw
  | cons b t ih =>
    intro x w hw
    simp only [List.foldl_cons]
    rcases List.mem_cons.mp hw with hw | hw
    · exact le_trans (hw ▸ le_max_left x b) (ih (max x b) (max x b) (List.mem_cons_self _ t))
    · rcases List.mem_cons.mp hw with hw | hw
      · exact le_trans (hw ▸ le_max_right x b) (ih (max x b) (max x b) (List.mem_cons_self _ t))
      · exact ih (max x b) w (List.mem_cons_of_mem _ hw)

theorem keyLe_total : ∀ a b : ℕ × ℕ, keyLe a b = true ∨ keyLe b a = true := by
  intro a b
  simp only [keyLe, decide_eq_true_eq]
  omega

theorem keyLe_trans : ∀ a b c : ℕ × ℕ, keyLe a b = true → keyLe b c = true →
    keyLe a c = true := by
  intro a b c
  simp only [keyLe, decide_eq_true_eq]
  omega

theorem keyLe_antisymm (a b : ℕ × ℕ) (hab : keyLe a b = true) (hne : a ≠ b) :
    keyLt a b := by
  simp only [keyLe, decide_eq_true_eq] at hab
  have : ¬ (a.1 = b.1 ∧ a.2 = b.2) := fun h => hne (Prod.ext h.1 h.2)
  simp only [keyLt]
  omega

end ClimateUtils

/-! ### Concrete fixtures used by witnesses and counterexamples -/

/-- A query that always raises (total network failure). -/
def qAlwaysFail : Query := fun _ _ => Except.error ()

/-- A query that succeeds with no rows. -/
def qNoData : Query := fun _ _ => Except.ok []

/-- A query that raises on the chunk starting at day 0 and succeeds with one
valid row on every other chunk. -/
def qFirstFail : Query := fun s _ =>
  if s = 0 then Except.error () else Except.ok [⟨s, some 20, some 10⟩]

/-- A query whose every chunk returns one row dated day 4, with values that
differ between the chunk starting at day 0 and later chunks: a
boundary-duplicate scenario. -/
def qBoundaryDup : Query := fun s _ =>
  Except.ok [⟨4, if s = 0 then some 1 else some 3, if s = 0 then some 2 else some 4⟩]

/-- A query returning two valid rows in descending date order. -/
def qOutOfOrder : Query := fun _ _ =>
  Except.ok [⟨3, some 1, some 1⟩, ⟨1, some 2, some 2⟩]

/-- Three January-2023 daily records with values 10, 20, 30. -/
def c6Rows : List ClimateUtils.CalRec :=
  [⟨2023, 1, 1, 10, 10⟩, ⟨2023, 1, 2, 20, 20⟩, ⟨2023, 1, 3, 30, 30⟩]

/-- One row with a missing second band value next to one fully valid row. -/
def c7Rows : List EERow := [⟨2, some 7, none⟩, ⟨3, some 1, some 2⟩]

/-! ### Claim theorems -/

/-- C10: for `start_date < end_date` the chunked extraction loop terminates
if and only if `chunk_days ≥ 1`: with `chunk_days ≥ 1` the iterated advance
step reaches `end_date` ((endd - start).toNat iterations suffice), with
`chunk_days ≤ 0` the loop state stays below `end_date` forever, and with
`chunk_days = 0` the chunk end equals the chunk start. -/
theorem c10_termination_iff (start endd cd : ℤ) (h : start < endd) :
    (1 ≤ cd → ∃ n : ℕ, (nextCurrent endd cd)^[n] start = endd) ∧
    (cd ≤ 0 → ∀ n : ℕ, (nextCurrent endd cd)^[n] start < endd) ∧
    (cd = 0 → nextCurrent endd cd start = start) := by
  refine ⟨?_, ?_, ?_⟩
  · intro hcd
    refine ⟨(endd - start).toNat, ?_⟩
    rw [iterate_nextCurrent endd cd start (le_of_lt h) (by omega)]
    have h1 : ((endd - start).toNat : ℤ) * 1 ≤ ((endd - start).toNat : ℤ) * cd :=
      mul_le_mul_of_nonneg_left hcd (by positivity)
    omega
  · intro hcd n
    have := iterate_nextCurrent_nonpos endd cd start h hcd n
    omega
  · intro hcd
    simp only [nextCurrent, hcd, add_zero]
    omega

/-- C10 witness: at `start = 0 < 3 = endd`, `chunk_days = 0`, the chunk end
equals the chunk start. -/
theorem c10_termination_iff_witness : nextCurrent 3 0 0 = 0 :=
  (c10_termination_iff 0 3 0 (by decide)).2.2 rfl

/-- C1 counterexample: at `start = 0`, `end = 10`, `chunk_days = 5` the loop
plans 2 chunks, while the claim's `ceil(days / chunk_days)` with `days` the
INCLUSIVE day count (11) gives 3; moreover no planned chunk's half-open
queried range covers `end_date` itself. -/
theorem c1_count_counterexample :
    (chunkPlan 0 10 5).length = 2 ∧
    ((11 + 5 - 1) / 5 : ℕ) = 3 ∧
    (chunkPlan 0 10 5).length ≠ ((11 + 5 - 1) / 5 : ℕ) ∧
    ¬ (∃ p ∈ chunkPlan 0 10 5, p.1 ≤ 10 ∧ (10 : ℤ) < p.2) := by
  refine ⟨by decide, by decide, by decide, by decide⟩

/-- C1 (amended): for `start_date ≤ end_date` and `chunk_days ≥ 1` the chunk
plan is an ordered contiguous chain of non-overlapping HALF-OPEN
sub-intervals `[s, e)` starting at `start_date`, whose union is exactly
`[start_date, end_date)` — `end_date` itself is excluded because each chunk
is queried with an end-exclusive date filter; every chunk spans `chunk_days`
days except possibly the final one, which is truncated to end at `end_date`;
the number of chunks is `ceil(d / chunk_days)` where `d = end_date -
start_date` is the EXCLUSIVE day difference (zero chunks when the two dates
are equal); and on an all-success run the extraction loop queries exactly
the planned chunks, in order. -/
theorem c1_chunk_plan_amended (start endd cd : ℤ) (hse : start ≤ endd) (hcd : 1 ≤ cd) :
    ((chunkPlan start endd cd).Chain' fun p q => p.2 = q.1) ∧
    (∀ hd, (chunkPlan start endd cd).head? = some hd → hd.1 = start) ∧
    (∀ p ∈ chunkPlan start endd cd,
        p.1 < p.2 ∧ p.2 - p.1 ≤ cd ∧ (p.2 - p.1 = cd ∨ p.2 = endd)) ∧
    (∀ x : ℤ, (start ≤ x ∧ x < endd) ↔
        ∃ p ∈ chunkPlan start endd cd, p.1 ≤ x ∧ x < p.2) ∧
    ((chunkPlan start endd cd).Pairwise fun p q => p.2 ≤ q.1) ∧
    (chunkPlan start endd cd).length = ((endd - start).toNat + cd.toNat - 1) / cd.toNat ∧
    (∀ (rowsOf : ℤ → ℤ → List EERow) (fuel : ℕ), (endd - start).toNat ≤ fuel →
      ExtractClimateData.extractLoop (fun s e => Except.ok (rowsOf s e)) endd cd fuel start []
        = some ((chunkPlan start endd cd).flatMap
            fun p => ExtractClimateData.processRows (rowsOf p.1 p.2))) := by
  refine ⟨chunkPlanAux_chain endd cd _ start,
    chunkPlanAux_head endd cd _ start, ?_, ?_, chunkPlanAux_pairwise endd cd hcd _ start,
    chunkPlanAux_length endd cd hcd _ start (le_refl _), ?_⟩
  · intro p hp
    have hshape := mem_chunkPlanAux_shape endd cd _ start p hp
    rcases hshape with ⟨hlt, heq⟩
    simp only [nextCurrent] at heq
    omega
  · exact chunkPlanAux_cover endd cd hcd _ start (le_refl _)
  · intro rowsOf fuel hfuel
    rw [ExtractClimateData_extractLoop_ok endd cd hcd rowsOf fuel start [] hfuel]
    rw [chunkPlanAux_congr endd cd hcd fuel ((endd - start).toNat) start hfuel (le_refl _)]
    simp [chunkPlan]

/-- C1 witness: the amended chunk-plan theorem applied at
`(start, end, chunk_days) = (0, 10, 5)`: 2 chunks. -/
theorem c1_chunk_plan_amended_witness :
    (chunkPlan 0 10 5).length = (((10 : ℤ) - 0).toNat + (5 : ℤ).toNat - 1) / (5 : ℤ).toNat :=
  (c1_chunk_plan_amended 0 10 5 (by decide) (by decide)).2.2.2.2.2.1

/-- C3 (code bug): the claim says a chunk whose query raises is skipped and
the remaining chunks are processed, with a warnings list returned. In
`extract_climate_data.py` the `except` block runs `continue` BEFORE
`current_date = chunk_end`, so a persistently failing chunk is re-attempted
forever: with the first chunk's query raising (and every later chunk able to
succeed), the extraction never returns, for any number of loop iterations —
and no warnings list exists anywhere (failures are only printed). -/
theorem c3_failing_chunk_loops_forever :
    ∀ fuel : ℕ,
      ExtractClimateData.extract_temperature_timeseries_chunked qFirstFail 0 10 5 fuel
        = none := by
  intro fuel
  have h := ExtractClimateData_extractLoop_stuck qFirstFail 10 5 0 (by decide) rfl fuel []
  simp [ExtractClimateData.extract_temperature_timeseries_chunked, h]

/-- C4 counterexample: with `end_date < start_date` (and also a nonsensical
`chunk_days`) the extraction does not fail: it runs zero chunks and returns
the empty DataFrame, and `validate_date_range` merely returns `False` — no
`InvalidRangeError` (or any exception) is raised anywhere. -/
theorem c4_no_error_counterexample :
    ExtractClimateData.extract_temperature_timeseries_chunked qAlwaysFail 5 3 7 0 = some [] ∧
    ClimateUtils.validate_date_range 20000 5 3 = false := by
  refine ⟨by decide, by decide⟩

/-- C4 (amended): for `end_date < start_date` the chunked extraction issues
no remote query (the result is the same for every query oracle) and returns
an empty result without raising; `validate_date_range` — which the
extraction never calls — returns `False` (a boolean, not an exception) for
such a range. No `InvalidRangeError` exists in the code, and `chunk_days ≤ 0`
is not validated at all (with `start_date < end_date` it makes the loop run
forever, see the C10 theorem). -/
theorem c4_invalid_range_amended (start endd : ℤ) (h : endd < start) :
    (∀ (q : Query) (cd : ℤ) (fuel : ℕ),
      ExtractClimateData.extract_temperature_timeseries_chunked q start endd cd fuel
        = some []) ∧
    (∀ now : ℤ, ClimateUtils.validate_date_range now start endd = false) := by
  constructor
  · intro q cd fuel
    have hnlt : ¬ start < endd := by omega
    have hloop : ExtractClimateData.extractLoop q endd cd fuel start [] = some [] := by
      cases fuel with
      | zero => simp [ExtractClimateData.extractLoop, hnlt]
      | succ m => simp [ExtractClimateData.extractLoop, hnlt]
    simp [ExtractClimateData.extract_temperature_timeseries_chunked, hloop]
  · intro now
    simp [ClimateUtils.validate_date_range, show endd ≤ start by omega]

/-- C4 witness: the amended theorem applied at `(start, end) = (9, 2)` with
the empty-success query, `chunk_days = 1`, fuel 3, and `now = 20000`. -/
theorem c4_invalid_range_amended_witness :
    ExtractClimateData.extract_temperature_timeseries_chunked qNoData 9 2 1 3 = some [] ∧
    ClimateUtils.validate_date_range 20000 9 2 = false :=
  ⟨(c4_invalid_range_amended 9 2 (by decide)).1 qNoData 1 3,
   (c4_invalid_range_amended 9 2 (by decide)).2 20000⟩

/-- C8 counterexample: when every chunk's query raises, the
`extract_climate_data.py` extraction does NOT return an empty SeriesResult:
its `except`-`continue` keeps retrying the first chunk, and after 5 loop
iterations (the plan has only 2 chunks) it still has not returned. -/
theorem c8_all_fail_counterexample :
    ExtractClimateData.extract_temperature_timeseries_chunked qAlwaysFail 0 10 5 5 = none := by
  decide

/-- C8 (amended): when every chunk's query fails, the case-study extraction
skips each chunk in turn and returns an empty SeriesResult without raising —
but with no warnings list (failures are only printed); the
`extract_climate_data.py` extraction instead never returns (see the C8
counterexample). An all-success run with zero valid rows likewise returns an
empty result without raising. -/
theorem c8_all_fail_amended (q : Query) (start endd cd : ℤ) (fuel : ℕ)
    (hq : ∀ s e, q s e = Except.error ()) (hcd : 1 ≤ cd)
    (hfuel : (endd - start).toNat ≤ fuel) :
    CaseStudy.extract_temperature_timeseries_chunked q start endd cd fuel = some [] := by
  have h := CaseStudy_extractLoop_all_fail q endd cd hcd hq fuel start [] hfuel
  simp [CaseStudy.extract_temperature_timeseries_chunked, h, dedupDatesFirst,
    dedupDatesFirstAux, sortByDate, insSort]

/-- C8 witness: the amended theorem at `(0, 10, 5)`, fuel 10, with the
always-failing query. -/
theorem c8_all_fail_amended_witness :
    CaseStudy.extract_temperature_timeseries_chunked qAlwaysFail 0 10 5 10 = some [] :=
  c8_all_fail_amended qAlwaysFail 0 10 5 10 (fun _ _ => rfl) (by decide) (by decide)

/-- C9: every SeriesResult the `extract_climate_data.py` extraction returns
is sorted ascending (non-strictly) by calendar date, whatever the query
oracle answered per chunk and in whatever order rows were accumulated. (The
case-study variant sorts the same way after its deduplication.) -/
theorem c9_sorted_by_date (q : Query) (start endd cd : ℤ) (fuel : ℕ) (res : List Rec)
    (h : ExtractClimateData.extract_temperature_timeseries_chunked q start endd cd fuel
      = some res) :
    res.Pairwise fun a b => a.date ≤ b.date := by
  simp only [ExtractClimateData.extract_temperature_timeseries_chunked] at h
  rcases Option.map_eq_some'.mp h with ⟨l, hl, hres⟩
  by_cases hnil : l = []
  · rw [← hres, if_pos hnil]
    exact List.Pairwise.nil
  · rw [← hres, if_neg hnil]
    exact sortByDate_sorted l

/-- C9 witness: a single chunk answered with rows in descending date order
is returned sorted ascending. -/
theorem c9_sorted_by_date_witness :
    ([⟨1, (2 : ℚ), (2 : ℚ)⟩, ⟨3, 1, 1⟩] : List Rec).Pairwise
      (fun a b => a.date ≤ b.date) :=
  c9_sorted_by_date qOutOfOrder 0 3 3 1 _ rfl

/-- C5 (code bug): in `extract_climate_data.py` the collection is
`select(['temperature_2m_celsius', 'temperature_2m_max_celsius'])`-ed, so
`row[4]` is the converted MEAN band and `row[5]` the converted MAX band —
yet the extractor assigns `row[4]` to `tmax_celsius` and `row[5]` to
`tmean_celsius`. At a row with `temperature_2m = 300 K` and
`temperature_2m_max = 310 K`, the returned `tmax_celsius` is `300 - 273.15`
(the mean) instead of `310 - 273.15`; `convert_temp` of `climate_utils.py`
(and the case-study script) performs the conversion with the correct
pairing. -/
theorem c5_band_swap_bug :
    ExtractClimateData.extract_temperature_timeseries_chunked
        (fun _ _ => Except.ok [ExtractClimateData.kelvin_to_celsius ⟨0, some 300, some 310⟩])
        0 1 1 1
      = some [⟨0, 300 - 273.15, 310 - 273.15⟩] ∧
    ClimateUtils.convert_temp 310 300 = (310 - 273.15, 300 - 273.15) ∧
    ((300 : ℚ) - 273.15 ≠ (310 : ℚ) - 273.15) := by
  refine ⟨rfl, rfl, by norm_num⟩

/-- Membership characterisation of the `extract_climate_data.py` row filter:
a record is produced from exactly the rows whose two band values are both
present. -/
theorem mem_processRows_edc (rows : List EERow) (d : ℤ) (a b : ℚ) :
    (Rec.mk d a b ∈ ExtractClimateData.processRows rows)
      ↔ (EERow.mk d (some a) (some b) ∈ rows) := by
  simp only [ExtractClimateData.processRows, List.mem_filterMap]
  constructor
  · rintro ⟨r, hr, hf⟩
    rcases r with ⟨t, v4, v5⟩
    cases v4 with
    | none => simp at hf
    | some x =>
      cases v5 with
      | none => simp at hf
      | some y =>
        simp only [Option.some.injEq, Rec.mk.injEq] at hf
        obtain ⟨h1, h2, h3⟩ := hf
        rw [← h1, ← h2, ← h3]
        exact hr
  · intro hmem
    exact ⟨⟨d, some a, some b⟩, hmem, rfl⟩

/-- C7 counterexample: a row with a valid first band value and a missing
second one is discarded entirely — the extraction of a range containing it
returns the empty SeriesResult, though the claim says any row with at least
one valid variable value is retained. -/
theorem c7_partial_row_counterexample :
    ExtractClimateData.extract_temperature_timeseries_chunked
        (fun _ _ => Except.ok [⟨2, some 7, none⟩]) 0 3 5 1 = some [] := by
  decide

/-- C7 (amended): a raw result row is RETAINED exactly when both selected
band values are present (`row[4] is not None and row[5] is not None`); a row
with any missing band value is discarded whole, and no "missing"-valued
record is ever emitted. Stated for a single-chunk run with an arbitrary row
list. -/
theorem c7_row_filter_amended (rows : List EERow) (res : List Rec)
    (h : ExtractClimateData.extract_temperature_timeseries_chunked
      (fun _ _ => Except.ok rows) 0 1 1 1 = some res) :
    ∀ (d : ℤ) (a b : ℚ),
      (Rec.mk d a b ∈ res) ↔ (EERow.mk d (some a) (some b) ∈ rows) := by
  have hloop : ExtractClimateData.extractLoop (fun _ _ => Except.ok rows) 1 1 1 0 []
      = some (ExtractClimateData.processRows rows) := rfl
  simp only [ExtractClimateData.extract_temperature_timeseries_chunked, hloop,
    Option.map_some', Option.some.injEq] at h
  intro d a b
  rw [← mem_processRows_edc rows d a b]
  by_cases hnil : ExtractClimateData.processRows rows = []
  · rw [← h, if_pos hnil, hnil]
  · rw [← h, if_neg hnil]
    constructor
    · intro hm
      exact (sortByDate_perm _).subset hm
    · intro hm
      exact (sortByDate_perm _).symm.subset hm

/-- C7 witness: with one partially missing row and one fully valid row, the
valid row is in the result and the partial row's date is absent. -/
theorem c7_row_filter_amended_witness :
    (Rec.mk 3 1 2 ∈ ([⟨3, 1, 2⟩] : List Rec)) ↔ (EERow.mk 3 (some 1) (some 2) ∈ c7Rows) :=
  c7_row_filter_amended c7Rows [⟨3, 1, 2⟩] rfl 3 1 2

/-- C2 counterexample: with chunks `[0,5)` and `[5,10)` each answering one
row dated day 4, the `extract_climate_data.py` extraction returns TWO
records for day 4 — the function performs no deduplication at all. -/
theorem c2_dup_counterexample :
    (ExtractClimateData.extract_temperature_timeseries_chunked qBoundaryDup 0 10 5 2).map
        (fun l => l.map Rec.date) = some [4, 4] ∧
    ¬ (([4, 4] : List ℤ).Nodup) := by
  refine ⟨by decide, by decide⟩

/-- C2 (amended): the `extract_climate_data.py` extraction performs no
deduplication and can return several records for one date (see the C2
counterexample); the case-study extraction
(`drop_duplicates(subset=['date'])`, default `keep='first'`, applied before
the sort) returns at most one record per calendar date, the record kept for
each date being the first-encountered row for that date in chunk-processing
order, and every accumulated date is represented. -/
theorem c2_dedup_first_amended (q : Query) (start endd cd : ℤ) (fuel : ℕ)
    (acc res : List Rec)
    (hacc : CaseStudy.extractLoop q endd cd fuel start [] = some acc)
    (hres : CaseStudy.extract_temperature_timeseries_chunked q start endd cd fuel
      = some res) :
    ((res.map Rec.date).Nodup) ∧
    (∀ r ∈ res, ∃ l1 l2, acc = l1 ++ r :: l2 ∧ ∀ x ∈ l1, x.date ≠ r.date) ∧
    (∀ a ∈ acc, ∃ r ∈ res, r.date = a.date) := by
  have hres2 : res = sortByDate (dedupDatesFirst acc) := by
    simp only [CaseStudy.extract_temperature_timeseries_chunked, hacc,
      Option.map_some', Option.some.injEq] at hres
    exact hres.symm
  refine ⟨?_, ?_, ?_⟩
  · have hperm : (res.map Rec.date).Perm ((dedupDatesFirst acc).map Rec.date) := by
      rw [hres2]
      exact (sortByDate_perm _).map Rec.date
    exact hperm.nodup_iff.mpr (dedupDatesFirstAux_nodup [] acc)
  · intro r hr
    have hmem : r ∈ dedupDatesFirst acc := (sortByDate_perm _).subset (hres2 ▸ hr)
    rcases dedupDatesFirstAux_first_occ [] acc r hmem with ⟨l1, l2, heq, hprev⟩
    exact ⟨l1, l2, heq, fun x hx => (hprev x hx).resolve_left (by simp)⟩
  · intro a ha
    rcases dedupDatesFirstAux_covers [] acc a ha with hmem | hmem
    · simp at hmem
    · rcases hmem with ⟨r, hr, hrd⟩
      refine ⟨r, ?_, hrd⟩
      rw [hres2]
      exact (sortByDate_perm _).symm.subset hr

/-- C2 witness: the boundary-duplicate query run through the case-study
extraction yields a single record for day 4 with no duplicate dates. -/
theorem c2_dedup_first_amended_witness :
    ((([⟨4, (2 : ℚ), (1 : ℚ)⟩] : List Rec)).map Rec.date).Nodup :=
  (c2_dedup_first_amended qBoundaryDup 0 10 5 2
    [⟨4, 2, 1⟩, ⟨4, 4, 3⟩] [⟨4, 2, 1⟩] rfl rfl).1

namespace ClimateUtils

/-- Specification predicate for one column's monthly statistics: the five
pandas aggregates of a non-empty slice, in the rounded form the code emits
(`std` of a single-row group is pandas `NaN`, modelled as `none`; the square
root inside `std` is taken exactly, see `roundStd2`). -/
def colStatsOk (xs : List ℚ) (s : ColStats) : Prop :=
  xs ≠ [] ∧
  s.count = xs.length ∧
  s.mean = round2 (xs.sum / (xs.length : ℚ)) ∧
  (∃ v ∈ xs, s.min = round2 v ∧ ∀ w ∈ xs, v ≤ w) ∧
  (∃ v ∈ xs, s.max = round2 v ∧ ∀ w ∈ xs, w ≤ v) ∧
  (xs.length = 1 → s.std = none) ∧
  (2 ≤ xs.length → s.std = some (roundStd2 (sampleVar xs)))

/-- `colStats` satisfies its specification on every non-empty slice. -/
theorem colStats_ok (xs : List ℚ) (hxs : xs ≠ []) : colStatsOk xs (colStats xs) := by
  rcases xs with _ | ⟨x, t⟩
  · exact absurd rfl hxs
  · refine ⟨List.cons_ne_nil x t, rfl, rfl, ?_, ?_, ?_, ?_⟩
    · exact ⟨t.foldl min x, foldl_min_mem t x, rfl, foldl_min_le t x⟩
    · exact ⟨t.foldl max x, foldl_max_mem t x, rfl, foldl_max_ge t x⟩
    · intro h1
      have ht : t = [] := by
        cases t with
        | nil => rfl
        | cons b t2 => simp at h1
      simp [colStats, ht]
    · intro h2
      have ht : t ≠ [] := by
        intro hcontra
        rw [hcontra] at h2
        simp at h2
      simp [colStats, ht]

end ClimateUtils

/-- C6: for every (non-empty) input, `calculate_monthly_averages` of
`src/climate_utils.py` emits exactly one row per `(year, month)` present in
the input, sorted strictly ascending by `(year, month)`, never a month with
zero records; and per output column it computes the mean, sample standard
deviation, minimum, maximum and count of that month's values, each rounded
to 2 decimal places (count exactly; `std` is `NaN`/`none` for a one-record
month, matching the pandas `ddof = 1` default). -/
theorem c6_monthly_aggregation (rows : List ClimateUtils.CalRec) (hne : rows ≠ []) :
    ((ClimateUtils.calculate_monthly_averages rows).Pairwise
        fun A B => ClimateUtils.keyLt (A.y, A.m) (B.y, B.m)) ∧
    (∀ k : ℕ × ℕ,
      (∃ mr ∈ ClimateUtils.calculate_monthly_averages rows, (mr.y, mr.m) = k)
        ↔ ∃ r ∈ rows, ClimateUtils.mkey r = k) ∧
    (∀ mr ∈ ClimateUtils.calculate_monthly_averages rows,
      ClimateUtils.colStatsOk
        ((rows.filter fun r => ClimateUtils.mkey r = (mr.y, mr.m)).map
          ClimateUtils.CalRec.tmax) mr.tmaxStats ∧
      ClimateUtils.colStatsOk
        ((rows.filter fun r => ClimateUtils.mkey r = (mr.y, mr.m)).map
          ClimateUtils.CalRec.tmean) mr.tmeanStats) := by
  have hperm : (insSort ClimateUtils.keyLe (rows.map ClimateUtils.mkey).dedup).Perm
      (rows.map ClimateUtils.mkey).dedup := insSort_perm _ _
  have hmem_months : ∀ k : ℕ × ℕ,
      k ∈ insSort ClimateUtils.keyLe (rows.map ClimateUtils.mkey).dedup
        ↔ ∃ r ∈ rows, ClimateUtils.mkey r = k := by
    intro k
    rw [hperm.mem_iff, List.mem_dedup, List.mem_map]
  refine ⟨?_, ?_, ?_⟩
  · have hnodup : (insSort ClimateUtils.keyLe (rows.map ClimateUtils.mkey).dedup).Nodup :=
      hperm.nodup_iff.mpr (List.nodup_dedup _)
    have hle := insSort_pairwise ClimateUtils.keyLe ClimateUtils.keyLe_total
      ClimateUtils.keyLe_trans (rows.map ClimateUtils.mkey).dedup
    have hlt := (hle.and hnodup).imp
      fun hab => ClimateUtils.keyLe_antisymm _ _ hab.1 hab.2
    simp only [ClimateUtils.calculate_monthly_averages]
    exact List.pairwise_map.mpr hlt
  · intro k
    constructor
    · rintro ⟨mr, hmr, hk⟩
      simp only [ClimateUtils.calculate_monthly_averages, List.mem_map] at hmr
      rcases hmr with ⟨k2, hk2, hmk⟩
      have hkk : k = k2 := by rw [← hk, ← hmk]
      rw [hkk]
      exact (hmem_months k2).mp hk2
    · intro hr
      have hk : k ∈ insSort ClimateUtils.keyLe (rows.map ClimateUtils.mkey).dedup :=
        (hmem_months k).mpr hr
      refine ⟨⟨k.1, k.2,
        ClimateUtils.colStats ((rows.filter fun r => ClimateUtils.mkey r = k).map
          ClimateUtils.CalRec.tmax),
        ClimateUtils.colStats ((rows.filter fun r => ClimateUtils.mkey r = k).map
          ClimateUtils.CalRec.tmean)⟩, ?_, rfl⟩
      simp only [ClimateUtils.calculate_monthly_averages, List.mem_map]
      exact ⟨k, hk, rfl⟩
  · intro mr hmr
    simp only [ClimateUtils.calculate_monthly_averages, List.mem_map] at hmr
    rcases hmr with ⟨k, hk, hmk⟩
    have hys : (mr.y, mr.m) = k := by rw [← hmk]
    rcases (hmem_months k).mp hk with ⟨r0, hr0, hkey⟩
    have hg : r0 ∈ rows.filter fun r => ClimateUtils.mkey r = (mr.y, mr.m) := by
      rw [hys]
      exact List.mem_filter.mpr ⟨hr0, by simp [hkey]⟩
    have hgne : (rows.filter fun r => ClimateUtils.mkey r = (mr.y, mr.m)) ≠ [] :=
      List.ne_nil_of_mem hg
    have htmax : mr.tmaxStats = ClimateUtils.colStats
        ((rows.filter fun r => ClimateUtils.mkey r = (mr.y, mr.m)).map
          ClimateUtils.CalRec.tmax) := by
      rw [hys, ← hmk]
    have htmean : mr.tmeanStats = ClimateUtils.colStats
        ((rows.filter fun r => ClimateUtils.mkey r = (mr.y, mr.m)).map
          ClimateUtils.CalRec.tmean) := by
      rw [hys, ← hmk]
    constructor
    · rw [htmax]
      exact ClimateUtils.colStats_ok _ (by
        intro hcontra
        exact hgne (List.map_eq_nil_iff.mp hcontra))
    · rw [htmean]
      exact ClimateUtils.colStats_ok _ (by
        intro hcontra
        exact hgne (List.map_eq_nil_iff.mp hcontra))

/-- C6 witness: the aggregator applied to three January-2023 records emits a
strictly ascending month sequence (here a single month). -/
theorem c6_monthly_aggregation_witness :
    ((ClimateUtils.calculate_monthly_averages c6Rows).Pairwise
        fun A B => ClimateUtils.keyLt (A.y, A.m) (B.y, B.m)) :=
  (c6_monthly_aggregation c6Rows (List.cons_ne_nil _ _)).1
